import Mathlib

/-!
Formal model of the spectral-power-distribution → RGB conversion pipeline
implemented in `spectrum-to-rgb.py`.

The numeric pipeline is embedded shallowly: the float arithmetic of the
source is modelled by exact rational arithmetic (`ℚ`), except for the
sRGB gamma-encoding step whose `v ** (1/2.4)` is a real power and is
modelled with `Real.rpow`.  Fallible steps return `Except PipelineError`.
-/

namespace SpecToRGB

/-- One row of the CIE 1931 colour-matching-function reference table
(`CIE_xyz_1931_2deg.csv`): a wavelength and the three CMF values. -/
structure CMFRow where
  wl : ℚ
  xbar : ℚ
  ybar : ℚ
  zbar : ℚ
deriving DecidableEq, Repr

/-- Linear interpolation over a table of `(x, y)` pairs, modelling
`scipy.interpolate.interp1d(xs, ys, bounds_error=False, fill_value=0)`:
inside the grid the value is interpolated linearly between the two
bracketing points, outside the grid the fill value `0` is returned. -/
def interp1 : List (ℚ × ℚ) → ℚ → ℚ
  | [], _ => 0
  | [p], x => if x = p.1 then p.2 else 0
  | p :: q :: l, x =>
      if x < p.1 then 0
      else if x ≤ q.1 then p.2 + (q.2 - p.2) * (x - p.1) / (q.1 - p.1)
      else interp1 (q :: l) x

/-- Maximum of a list of rationals, modelling `np.max` (the source only
applies it to non-empty arrays; the empty case is an arbitrary default). -/
def npMax : List ℚ → ℚ
  | [] => 0
  | [a] => a
  | a :: b :: l => max a (npMax (b :: l))

/-- The summation pattern `np.sum(intensities * f(wavelengths))` used in
`spectrum_to_xyz`: elementwise product of the intensities with the values
of `f` at the wavelengths, then the sum. -/
def weightedSum (f : ℚ → ℚ) (Is ws : List ℚ) : ℚ :=
  (List.zipWith (fun I w => I * f w) Is ws).sum

/-- The Spectral Integrator `spectrum_to_xyz`: interpolate each CMF column
onto the spectrum wavelengths and form the three weighted sums
X = Σ I(λ)·x̄(λ), Y = Σ I(λ)·ȳ(λ), Z = Σ I(λ)·z̄(λ). -/
def spectrum_to_xyz (ws Is : List ℚ) (cie : List CMFRow) : ℚ × ℚ × ℚ :=
  let fx := fun w => interp1 (cie.map fun r => (r.wl, r.xbar)) w
  let fy := fun w => interp1 (cie.map fun r => (r.wl, r.ybar)) w
  let fz := fun w => interp1 (cie.map fun r => (r.wl, r.zbar)) w
  (weightedSum fx Is ws, weightedSum fy Is ws, weightedSum fz Is ws)

/-- Normalization of an intensity array by its own maximum,
`intensities / np.max(intensities)`, as performed in `main`. -/
def normalizeByMax (Is : List ℚ) : List ℚ :=
  Is.map (· / npMax Is)

/-- The Chromaticity Normalizer of `main`:
`x = X/(X+Y+Z), y = Y/(X+Y+Z)`. -/
def chromaticity (t : ℚ × ℚ × ℚ) : ℚ × ℚ :=
  (t.1 / (t.1 + t.2.1 + t.2.2), t.2.1 / (t.1 + t.2.1 + t.2.2))

/-- The error values raised (as `ValueError`) along the pipeline, with the
message text of the corresponding `raise` site. -/
inductive PipelineError where
  | invalidSpectrumFormat (path : String)
  | emptySpectrum
  | allZeroIntensities
  | zeroTristimulus
deriving DecidableEq, Repr

/-- The message carried by each error, as in the source `raise` calls. -/
def PipelineError.message : PipelineError → String
  | .invalidSpectrumFormat path =>
      "Invalid spectrum file format: " ++ path ++ ". Expected two columns."
  | .emptySpectrum => "Spectrum file is empty or improperly formatted."
  | .allZeroIntensities => "Spectrum intensities are all zero."
  | .zeroTristimulus => "Spectrum produces zero total intensity in XYZ space."

/-- Dimensionality of the array `np.genfromtxt` yields for a table of rows:
a file with zero or one rows loads as a one-dimensional array, a file with
two or more rows as a two-dimensional one. -/
def npNdim (rows : List (List ℚ)) : ℕ :=
  if rows.length ≤ 1 then 1 else 2

/-- Number of columns (`shape[1]`) of a loaded rectangular table: the
length of its first row. -/
def npNcols (rows : List (List ℚ)) : ℕ :=
  (rows.headD []).length

/-- The spectrum-loading layer `load_spectrum`: the table already loaded by
the Table Loader (`load_csv` / `np.genfromtxt`) is validated to be
two-dimensional with exactly two columns (`data.ndim != 2 or
data.shape[1] != 2`) and split into `(data[:,0], data[:,1])`. -/
def load_spectrum (path : String) (data : List (List ℚ)) :
    Except PipelineError (List ℚ × List ℚ) :=
  if npNdim data ≠ 2 ∨ npNcols data ≠ 2 then
    .error (.invalidSpectrumFormat path)
  else
    .ok (data.map (fun r => r.headD 0), data.map (fun r => r.getD 1 0))

/-- The linear part of the RGB Encoder: `np.dot(mat, [x, y, z])` with the
fixed sRGB matrix of `xyz_to_rgb`. -/
def linearRGB (x y z : ℚ) : ℚ × ℚ × ℚ :=
  (3.2406 * x - 1.5372 * y - 0.4986 * z,
   -0.9689 * x + 1.8758 * y + 0.0415 * z,
   0.0557 * x - 0.2040 * y + 1.0570 * z)

/-- `np.clip(rgb, 0, None)`: clip each channel to be non-negative. -/
def clipRGB (c : ℚ × ℚ × ℚ) : ℚ × ℚ × ℚ :=
  (max c.1 0, max c.2.1 0, max c.2.2 0)

/-- `np.max(rgb)` over the three channels. -/
def maxChannel (c : ℚ × ℚ × ℚ) : ℚ :=
  max c.1 (max c.2.1 c.2.2)

/-- The brightness normalization of `xyz_to_rgb`: divide the three channels
by their maximum, guarded by `if max_val > 0` against division by zero. -/
def normalizeRGB (c : ℚ × ℚ × ℚ) : ℚ × ℚ × ℚ :=
  let m := maxChannel c
  if 0 < m then (c.1 / m, c.2.1 / m, c.2.2 / m) else c

/-- The sRGB gamma-encoding function `gamma_correct` of `xyz_to_rgb`:
`12.92·v` for `v ≤ 0.0031308`, else `1.055·v^(1/2.4) − 0.055`. -/
noncomputable def gamma_correct (v : ℝ) : ℝ :=
  if v ≤ 0.0031308 then 12.92 * v else 1.055 * v ^ ((1 : ℝ) / 2.4) - 0.055

/-- Rounding to the nearest integer with ties to even, modelling the
built-in `round` of Python 3 used in `int(round(c * 255))`. -/
noncomputable def pyRound (x : ℝ) : ℤ :=
  if Int.fract x < 1 / 2 then ⌊x⌋
  else if 1 / 2 < Int.fract x then ⌊x⌋ + 1
  else if Even ⌊x⌋ then ⌊x⌋ else ⌊x⌋ + 1

/-- The RGB Encoder `xyz_to_rgb`: linear sRGB transform, clip at 0,
brightness normalization, gamma encoding, scale to 0–255 and round. -/
noncomputable def xyz_to_rgb (x y z : ℚ) : ℤ × ℤ × ℤ :=
  let n := normalizeRGB (clipRGB (linearRGB x y z))
  (pyRound (gamma_correct ((n.1 : ℝ)) * 255),
   pyRound (gamma_correct ((n.2.1 : ℝ)) * 255),
   pyRound (gamma_correct ((n.2.2 : ℝ)) * 255))

/-- The computational body of `main` after the file checks: the emptiness
check, the guarded normalization by the maximum intensity, the second
normalization, the integration to XYZ, the zero-total check, the
chromaticity and the RGB encoding. -/
noncomputable def runPipeline (ws Is : List ℚ) (cie : List CMFRow) :
    Except PipelineError ((ℚ × ℚ) × (ℤ × ℤ × ℤ)) :=
  if ws.length = 0 ∨ Is.length = 0 then .error .emptySpectrum
  else
    let m := npMax Is
    if 0 < m then
      let Is1 := Is.map (· / m)
      let Is2 := Is1.map (· / npMax Is1)
      let t := spectrum_to_xyz ws Is2 cie
      let total := t.1 + t.2.1 + t.2.2
      if total = 0 then .error .zeroTristimulus
      else .ok ((t.1 / total, t.2.1 / total), xyz_to_rgb t.1 t.2.1 t.2.2)
    else .error .allZeroIntensities

/-- The observable outcome of one invocation of `main`: the process exit
status and the user-facing message printed for the usage/error paths. -/
structure MainResult where
  exitCode : ℕ
  message : String
deriving DecidableEq, Repr

/-- The driver `main`, abstracted over the command line, the file-existence
test and the contents the Table Loader would read from each path: argument
count and file existence are checked first (each exits with status 1),
every later failure is caught by the top-level handler, printed with an
`Error:` prefix, and the process exits with status 0. -/
noncomputable def mainRun (argv : List String) (fileExists : String → Bool)
    (fileTable : String → List (List ℚ)) (cie : List CMFRow) : MainResult :=
  if argv.length ≠ 2 then
    ⟨1, "Usage: python spectrum-to-rgb.py <spectrum_file.csv>"⟩
  else
    let path := argv.getD 1 ""
    if fileExists path = false then
      ⟨1, "Error: file \x27" ++ path ++ "\x27 not found."⟩
    else
      match load_spectrum path (fileTable path) with
      | .error e => ⟨0, "Error: " ++ e.message⟩
      | .ok (ws, Is) =>
          match runPipeline ws Is cie with
          | .error e => ⟨0, "Error: " ++ e.message⟩
          | .ok _ => ⟨0, ""⟩

/-- Every element of a list is bounded by `npMax`. -/
theorem le_npMax_of_mem {l : List ℚ} {x : ℚ} (h : x ∈ l) : x ≤ npMax l := by
  induction l with
  | nil => cases h
  | cons a t ih =>
    cases t with
    | nil =>
      rcases List.mem_singleton.mp h with rfl
      exact le_of_eq rfl
    | cons b t2 =>
      rcases List.mem_cons.mp h with rfl | h2
      · exact le_max_left _ _
      · exact le_trans (ih h2) (le_max_right _ _)

/-- `npMax` of a non-empty list is one of its elements. -/
theorem npMax_mem : ∀ {l : List ℚ}, l ≠ [] → npMax l ∈ l
  | [], h => absurd rfl h
  | [a], _ => by simp [npMax]
  | a :: b :: t, _ => by
    rcases max_choice a (npMax (b :: t)) with h | h
    · rw [npMax, h]; exact List.mem_cons_self a _
    · rw [npMax, h]
      exact List.mem_cons_of_mem a (npMax_mem (List.cons_ne_nil b t))

/-- Dividing a list by a positive constant divides its maximum. -/
theorem npMax_map_div {m : ℚ} (hm : 0 < m) :
    ∀ l : List ℚ, npMax (l.map (· / m)) = npMax l / m
  | [] => by simp [npMax]
  | [a] => by simp [npMax]
  | a :: b :: t => by
    have ih := npMax_map_div hm (b :: t)
    simp only [List.map_cons] at ih ⊢
    rw [npMax, npMax, ih, max_div_div_right hm.le]

/-- The maximum of a delta intensity array (a single `1` among `0`s) is `1`. -/
theorem npMax_delta (n k : ℕ) :
    npMax (List.replicate n (0 : ℚ) ++ 1 :: List.replicate k 0) = 1 := by
  apply le_antisymm
  · have hne : (List.replicate n (0 : ℚ) ++ 1 :: List.replicate k 0) ≠ [] := by
      simp
    have hmem := npMax_mem hne
    rcases List.mem_append.mp hmem with h | h
    · rw [List.eq_of_mem_replicate h]; norm_num
    · rcases List.mem_cons.mp h with h1 | h2
      · rw [h1]
      · rw [List.eq_of_mem_replicate h2]; norm_num
  · exact le_npMax_of_mem (List.mem_append_right _ (List.mem_cons_self _ _))

/-- `weightedSum` over a cons pair. -/
theorem weightedSum_cons (f : ℚ → ℚ) (I w : ℚ) (Is ws : List ℚ) :
    weightedSum f (I :: Is) (w :: ws) = I * f w + weightedSum f Is ws := by
  simp [weightedSum]

/-- All-zero intensities integrate to `0`. -/
theorem weightedSum_replicate_zero (f : ℚ → ℚ) :
    ∀ u : List ℚ, weightedSum f (List.replicate u.length 0) u = 0
  | [] => rfl
  | w :: u => by
    rw [List.length_cons, List.replicate_succ, weightedSum_cons,
      weightedSum_replicate_zero f u]
    ring

/-- A delta intensity array integrates to the value at its wavelength. -/
theorem weightedSum_delta (f : ℚ → ℚ) (w : ℚ) :
    ∀ u v : List ℚ,
      weightedSum f (List.replicate u.length 0 ++ 1 :: List.replicate v.length 0)
        (u ++ w :: v) = f w
  | [], v => by
    simp only [List.length_nil, List.replicate_zero, List.nil_append]
    rw [weightedSum_cons, weightedSum_replicate_zero f v]
    ring
  | a :: u, v => by
    simp only [List.length_cons, List.replicate_succ, List.cons_append]
    rw [weightedSum_cons, weightedSum_delta f w u v]
    ring

/-- The integral of non-negative intensities against a non-negative
function is non-negative. -/
theorem weightedSum_nonneg {f : ℚ → ℚ} (hf : ∀ w, 0 ≤ f w) :
    ∀ (Is ws : List ℚ), (∀ I ∈ Is, 0 ≤ I) → 0 ≤ weightedSum f Is ws
  | [], _, _ => le_refl 0
  | _ :: _, [], _ => le_refl 0
  | I :: Is, w :: ws, hI => by
    rw [weightedSum_cons]
    exact add_nonneg (mul_nonneg (hI I (List.mem_cons_self I Is)) (hf w))
      (weightedSum_nonneg hf Is ws fun x hx => hI x (List.mem_cons_of_mem I hx))

/-- `weightedSum` is homogeneous under dividing the intensities. -/
theorem weightedSum_map_div (f : ℚ → ℚ) (m : ℚ) :
    ∀ Is ws : List ℚ, weightedSum f (Is.map (· / m)) ws = weightedSum f Is ws / m
  | [], _ => by simp [weightedSum]
  | _ :: _, [] => by simp [weightedSum]
  | I :: Is, w :: ws => by
    rw [List.map_cons, weightedSum_cons, weightedSum_cons,
      weightedSum_map_div f m Is ws, div_mul_eq_mul_div, add_div]

/-- Linear interpolation of a table with non-negative values is
non-negative everywhere. -/
theorem interp1_nonneg :
    ∀ l : List (ℚ × ℚ), (∀ p ∈ l, 0 ≤ p.2) → ∀ x, 0 ≤ interp1 l x
  | [], _, _ => le_refl 0
  | [p], h, x => by
    simp only [interp1]
    split
    · exact h p (List.mem_singleton_self p)
    · exact le_refl 0
  | p :: q :: l, h, x => by
    have hp2 : 0 ≤ p.2 := h p (List.mem_cons_self _ _)
    have hq2 : 0 ≤ q.2 := h q (List.mem_cons_of_mem _ (List.mem_cons_self _ _))
    simp only [interp1]
    split
    · exact le_refl 0
    · split
      · rename_i h1 h2
        have hxp : p.1 ≤ x := not_lt.mp h1
        rcases lt_trichotomy p.1 q.1 with hlt | heq | hgt
        · have hdne : q.1 - p.1 ≠ 0 := ne_of_gt (sub_pos.mpr hlt)
          have key : 0 ≤ (p.2 + (q.2 - p.2) * (x - p.1) / (q.1 - p.1)) * (q.1 - p.1) := by
            rw [add_mul, div_mul_cancel₀ _ hdne]
            nlinarith
          exact (mul_nonneg_iff_of_pos_right (sub_pos.mpr hlt)).mp key
        · have hx : x = p.1 := le_antisymm (heq ▸ h2) hxp
          simp [hx, hp2]
        · exact absurd h2 (by linarith)
      · exact interp1_nonneg (q :: l)
          (fun r hr => h r (List.mem_cons_of_mem _ hr)) x

/-- On a strictly increasing grid, linear interpolation is exact at every
grid point: it returns the tabulated value there. -/
theorem interp1_mem :
    ∀ l : List (ℚ × ℚ), (l.map Prod.fst).Pairwise (· < ·) →
      ∀ a b : ℚ, (a, b) ∈ l → interp1 l a = b
  | [], _, a, b, hm => absurd hm (List.not_mem_nil _)
  | [p], _, a, b, hm => by
    have hp : (a, b) = p := List.mem_singleton.mp hm
    subst hp
    simp [interp1]
  | p :: q :: l, hs, a, b, hm => by
    simp only [List.map_cons, List.pairwise_cons] at hs
    obtain ⟨hhead, hs2⟩ := hs
    have hpq : p.1 < q.1 :=
      hhead q.1 (List.mem_cons_self _ _)
    obtain hp | hm' := List.mem_cons.mp hm
    · have ha : a = p.1 := by rw [← hp]
      have hb : b = p.2 := by rw [← hp]
      simp only [interp1]
      rw [if_neg (by rw [ha]; exact lt_irrefl p.1),
        if_pos (by rw [ha]; exact hpq.le), ha, hb]
      simp
    · have hfst : a ∈ (q :: l).map Prod.fst :=
        List.mem_map.mpr ⟨(a, b), hm', rfl⟩
      have hpa : p.1 < a := hhead a (by simpa using hfst)
      simp only [interp1]
      rw [if_neg (not_lt.mpr hpa.le)]
      obtain hq | hm2 := List.mem_cons.mp hm'
      · have ha : a = q.1 := by rw [← hq]
        have hb : b = q.2 := by rw [← hq]
        rw [if_pos (le_of_eq ha), ha, hb, mul_div_assoc,
          div_self (ne_of_gt (sub_pos.mpr hpq)), mul_one]
        ring
      · have haq : q.1 < a := hs2.1 a (List.mem_map.mpr ⟨(a, b), hm2, rfl⟩)
        rw [if_neg (not_le.mpr haq)]
        refine interp1_mem (q :: l) ?_ a b hm'
        simp only [List.map_cons, List.pairwise_cons]
        exact hs2

/-- Linear interpolation returns the fill value `0` at any point strictly
below every grid point or strictly above every grid point. -/
theorem interp1_outside :
    ∀ (l : List (ℚ × ℚ)) (x : ℚ),
      (∀ p ∈ l, x < p.1) ∨ (∀ p ∈ l, p.1 < x) → interp1 l x = 0
  | [], _, _ => rfl
  | [p], x, h => by
    have hne : x ≠ p.1 := by
      rcases h with h | h
      · exact ne_of_lt (h p (List.mem_singleton_self p))
      · exact ne_of_gt (h p (List.mem_singleton_self p))
    simp [interp1, hne]
  | p :: q :: l, x, h => by
    rcases h with h | h
    · simp only [interp1]
      rw [if_pos (h p (List.mem_cons_self _ _))]
    · have hp : p.1 < x := h p (List.mem_cons_self _ _)
      have hq : q.1 < x := h q (List.mem_cons_of_mem _ (List.mem_cons_self _ _))
      simp only [interp1]
      rw [if_neg (not_lt.mpr hp.le), if_neg (not_le.mpr hq)]
      exact interp1_outside (q :: l) x
        (Or.inr fun r hr => h r (List.mem_cons_of_mem _ hr))

/-- In a strictly increasing list, the first element is the minimum. -/
theorem sorted_headD_le {l : List ℚ} (hs : l.Pairwise (· < ·)) {a : ℚ}
    (ha : a ∈ l) : l.headD 0 ≤ a := by
  cases l with
  | nil => cases ha
  | cons b t =>
    rcases List.mem_cons.mp ha with rfl | h2
    · exact le_refl _
    · exact ((List.pairwise_cons.mp hs).1 a h2).le

/-- In a strictly increasing list, the last element is the maximum. -/
theorem sorted_le_getLastD :
    ∀ (l : List ℚ) (d : ℚ), l.Pairwise (· < ·) → ∀ a ∈ l, a ≤ l.getLastD d
  | [], _, _, a, ha => absurd ha (List.not_mem_nil a)
  | b :: t, d, hs, a, ha => by
    rw [List.getLastD_cons]
    rcases List.mem_cons.mp ha with rfl | h2
    · rcases List.mem_cons.mp (List.getLastD_mem_cons t a) with h | h
      · exact le_of_eq h.symm
      · exact ((List.pairwise_cons.mp hs).1 _ h).le
    · exact sorted_le_getLastD t b (List.pairwise_cons.mp hs).2 a h2

/-- The gamma exponent of the source, `1 / 2.4`, equals `5 / 12`. -/
theorem gamma_exponent_eq : (1 : ℝ) / 2.4 = 5 / 12 := by norm_num

/-- Raising `v ^ (5/12)` to the 12th power yields `v ^ 5`. -/
theorem rpow512_pow_eq {v : ℝ} (hv : 0 ≤ v) :
    (v ^ ((5 : ℝ) / 12)) ^ (12 : ℕ) = v ^ (5 : ℕ) := by
  have h1 : ((5 : ℝ) / 12) * ((12 : ℕ) : ℝ) = ((5 : ℕ) : ℝ) := by norm_num
  rw [← Real.rpow_natCast (v ^ ((5 : ℝ) / 12)) 12, ← Real.rpow_mul hv, h1,
    Real.rpow_natCast]

/-- An upper bound on a `5/12` power is equivalent to a rational
polynomial inequality. -/
theorem rpow512_le_iff {v c : ℝ} (hv : 0 ≤ v) (hc : 0 ≤ c) :
    v ^ ((5 : ℝ) / 12) ≤ c ↔ v ^ (5 : ℕ) ≤ c ^ (12 : ℕ) := by
  rw [← rpow512_pow_eq hv]
  exact (pow_le_pow_iff_left₀ (Real.rpow_nonneg hv _) hc (by norm_num)).symm

/-- A lower bound on a `5/12` power is equivalent to a rational
polynomial inequality. -/
theorem le_rpow512_iff {v c : ℝ} (hv : 0 ≤ v) (hc : 0 ≤ c) :
    c ≤ v ^ ((5 : ℝ) / 12) ↔ c ^ (12 : ℕ) ≤ v ^ (5 : ℕ) := by
  rw [← rpow512_pow_eq hv]
  exact (pow_le_pow_iff_left₀ hc (Real.rpow_nonneg hv _) (by norm_num)).symm

/-- A strict upper bound on a `5/12` power is equivalent to a rational
polynomial inequality. -/
theorem rpow512_lt_iff {v c : ℝ} (hv : 0 ≤ v) (hc : 0 ≤ c) :
    v ^ ((5 : ℝ) / 12) < c ↔ v ^ (5 : ℕ) < c ^ (12 : ℕ) := by
  rw [← rpow512_pow_eq hv]
  exact (pow_lt_pow_iff_left₀ (Real.rpow_nonneg hv _) hc (by norm_num)).symm

/-- Unfolding `gamma_correct` on the linear branch. -/
theorem gamma_correct_of_le {v : ℝ} (h : v ≤ 0.0031308) :
    gamma_correct v = 12.92 * v := by
  rw [gamma_correct, if_pos h]

/-- Unfolding `gamma_correct` on the power branch, with the exponent
rewritten as `5/12`. -/
theorem gamma_correct_of_gt {v : ℝ} (h : ¬v ≤ 0.0031308) :
    gamma_correct v = 1.055 * v ^ ((5 : ℝ) / 12) - 0.055 := by
  rw [gamma_correct, if_neg h, gamma_exponent_eq]

/-- `gamma_correct 0 = 0`. -/
theorem gamma_correct_zero : gamma_correct 0 = 0 := by
  rw [gamma_correct_of_le (by norm_num)]
  norm_num

/-- The gamma encoding fixes `1`. -/
theorem gamma_correct_one : gamma_correct 1 = 1 := by
  rw [gamma_correct_of_gt (by norm_num), Real.one_rpow]
  norm_num

/-- The gamma encoding of a value in `[0, 1]` is non-negative. -/
theorem gamma_correct_nonneg {v : ℝ} (hv : 0 ≤ v) : 0 ≤ gamma_correct v := by
  by_cases h : v ≤ 0.0031308
  · rw [gamma_correct_of_le h]
    nlinarith
  · rw [gamma_correct_of_gt h]
    have hvt : (0.0031308 : ℝ) ≤ v := le_of_lt (not_le.mp h)
    have hlow : (0.09 : ℝ) ≤ v ^ ((5 : ℝ) / 12) := by
      rw [le_rpow512_iff hv (by norm_num)]
      calc (0.09 : ℝ) ^ (12 : ℕ) ≤ (0.0031308 : ℝ) ^ (5 : ℕ) := by norm_num
        _ ≤ v ^ (5 : ℕ) := pow_le_pow_left₀ (by norm_num) hvt 5
    nlinarith

/-- The gamma encoding of a value in `[0, 1]` is at most `1`. -/
theorem gamma_correct_le_one {v : ℝ} (hv : 0 ≤ v) (hv1 : v ≤ 1) :
    gamma_correct v ≤ 1 := by
  by_cases h : v ≤ 0.0031308
  · rw [gamma_correct_of_le h]
    nlinarith
  · rw [gamma_correct_of_gt h]
    have := Real.rpow_le_one hv hv1 (show (0 : ℝ) ≤ 5 / 12 by norm_num)
    nlinarith

/-- The gamma encoding is monotone on the linear branch. -/
theorem gamma_correct_mono_low {u v : ℝ} (huv : u ≤ v) (hv : v ≤ 0.0031308) :
    gamma_correct u ≤ gamma_correct v := by
  rw [gamma_correct_of_le (le_trans huv hv), gamma_correct_of_le hv]
  nlinarith

/-- The gamma encoding is monotone on the power branch. -/
theorem gamma_correct_mono_high {u v : ℝ} (hu : ¬u ≤ 0.0031308) (huv : u ≤ v) :
    gamma_correct u ≤ gamma_correct v := by
  have hv : ¬v ≤ 0.0031308 := fun hc => hu (le_trans huv hc)
  rw [gamma_correct_of_gt hu, gamma_correct_of_gt hv]
  have h0u : (0 : ℝ) ≤ u := le_trans (by norm_num) (not_le.mp hu).le
  have := Real.rpow_le_rpow h0u huv (show (0 : ℝ) ≤ 5 / 12 by norm_num)
  nlinarith

/-- The power branch evaluated at the breakpoint lies below the linear
branch there (the two pieces of the source gamma function do not meet
exactly). -/
theorem gamma_breakpoint_curve_le :
    1.055 * (0.0031308 : ℝ) ^ ((5 : ℝ) / 12) - 0.055 ≤ 12.92 * 0.0031308 := by
  have h : (0.0031308 : ℝ) ^ ((5 : ℝ) / 12) ≤ 5965621 / 65937500 := by
    rw [rpow512_le_iff (by norm_num) (by norm_num)]
    norm_num
  nlinarith

/-- The power branch at the breakpoint is below the linear branch by less
than `10⁻⁷`. -/
theorem gamma_breakpoint_curve_ge :
    12.92 * (0.0031308 : ℝ) - 1 / 10 ^ 7 ≤
      1.055 * (0.0031308 : ℝ) ^ ((5 : ℝ) / 12) - 0.055 := by
  have h : (47724943 / 527500000 : ℝ) ≤ (0.0031308 : ℝ) ^ ((5 : ℝ) / 12) := by
    rw [le_rpow512_iff (by norm_num) (by norm_num)]
    norm_num
  nlinarith

/-- `pyRound` of a non-negative real is non-negative. -/
theorem pyRound_nonneg {x : ℝ} (hx : 0 ≤ x) : 0 ≤ pyRound x := by
  have hf : (0 : ℤ) ≤ ⌊x⌋ := Int.floor_nonneg.mpr hx
  rw [pyRound]
  split
  · exact hf
  · split
    · omega
    · split
      · exact hf
      · omega

/-- `pyRound` of a real at most an integer bound stays at most that
bound. -/
theorem pyRound_le {x : ℝ} {B : ℤ} (hx : x ≤ (B : ℝ)) : pyRound x ≤ B := by
  have hfloor : ⌊x⌋ ≤ B := by
    have := Int.floor_le_floor hx
    simpa using this
  have hplus : ¬Int.fract x < 1 / 2 → ⌊x⌋ + 1 ≤ B := by
    intro hge
    have h12 : (1 / 2 : ℝ) ≤ Int.fract x := not_lt.mp hge
    have hxf : (⌊x⌋ : ℝ) = x - Int.fract x := by
      rw [Int.self_sub_fract]
    have : (⌊x⌋ : ℝ) ≤ (B : ℝ) - 1 / 2 := by rw [hxf]; linarith
    have hlt : (⌊x⌋ : ℝ) < (B : ℝ) := by linarith
    exact_mod_cast Int.add_one_le_of_lt (by exact_mod_cast hlt)
  rw [pyRound]
  split
  · exact hfloor
  · rename_i hge
    split
    · exact hplus hge
    · split
      · exact hfloor
      · exact hplus hge

/-- `pyRound 0 = 0`. -/
theorem pyRound_zero : pyRound 0 = 0 := by
  rw [pyRound]
  simp

/-- Unfolding of the Spectral Integrator into its three weighted sums. -/
theorem spectrum_to_xyz_eq (ws Is : List ℚ) (cie : List CMFRow) :
    spectrum_to_xyz ws Is cie =
      (weightedSum (fun w => interp1 (cie.map fun r => (r.wl, r.xbar)) w) Is ws,
       weightedSum (fun w => interp1 (cie.map fun r => (r.wl, r.ybar)) w) Is ws,
       weightedSum (fun w => interp1 (cie.map fun r => (r.wl, r.zbar)) w) Is ws) :=
  rfl

/-- Normalizing the intensities divides every XYZ component by the
maximum intensity. -/
theorem spectrum_to_xyz_normalize (ws Is : List ℚ) (cie : List CMFRow) :
    spectrum_to_xyz ws (normalizeByMax Is) cie =
      ((spectrum_to_xyz ws Is cie).1 / npMax Is,
       (spectrum_to_xyz ws Is cie).2.1 / npMax Is,
       (spectrum_to_xyz ws Is cie).2.2 / npMax Is) := by
  rw [spectrum_to_xyz_eq, spectrum_to_xyz_eq]
  simp only [normalizeByMax]
  rw [weightedSum_map_div, weightedSum_map_div, weightedSum_map_div]

/-- Cancelling a common non-zero divisor inside a quotient of quotients. -/
theorem div_div_same_cancel {a b c : ℚ} (hc : c ≠ 0) :
    a / c / (b / c) = a / b := by
  rcases eq_or_ne b 0 with rfl | hb
  · simp
  · field_simp

/-- C7: the interpolated CMF functions built from the reference table
return 0 at any wavelength strictly outside the [minimum, maximum] range
of the table's wavelength grid, for each of x̄, ȳ, z̄. -/
theorem interpolation_zero_fill (cie : List CMFRow) (w : ℚ)
    (_hne : cie ≠ [])
    (hs : (cie.map CMFRow.wl).Pairwise (· < ·))
    (hout : w < (cie.map CMFRow.wl).headD 0 ∨
            (cie.map CMFRow.wl).getLastD 0 < w) :
    interp1 (cie.map fun r => (r.wl, r.xbar)) w = 0 ∧
    interp1 (cie.map fun r => (r.wl, r.ybar)) w = 0 ∧
    interp1 (cie.map fun r => (r.wl, r.zbar)) w = 0 := by
  have key : ∀ g : CMFRow → ℚ,
      interp1 (cie.map fun r => (r.wl, g r)) w = 0 := by
    intro g
    apply interp1_outside
    rcases hout with h | h
    · left
      intro p hp
      obtain ⟨r, hr, rfl⟩ := List.mem_map.mp hp
      have hwl : r.wl ∈ cie.map CMFRow.wl := List.mem_map_of_mem _ hr
      exact lt_of_lt_of_le h (sorted_headD_le hs hwl)
    · right
      intro p hp
      obtain ⟨r, hr, rfl⟩ := List.mem_map.mp hp
      have hwl : r.wl ∈ cie.map CMFRow.wl := List.mem_map_of_mem _ hr
      exact lt_of_le_of_lt (sorted_le_getLastD _ 0 hs r.wl hwl) h
  exact ⟨key _, key _, key _⟩

/-- Witness for C7 at a concrete two-row table and an out-of-range
wavelength. -/
theorem interpolation_zero_fill_witness :
    interp1 ([⟨400, 1, 2, 3⟩, ⟨500, 4, 5, 6⟩].map
      fun r : CMFRow => (r.wl, r.xbar)) 600 = 0 ∧
    interp1 ([⟨400, 1, 2, 3⟩, ⟨500, 4, 5, 6⟩].map
      fun r : CMFRow => (r.wl, r.ybar)) 600 = 0 ∧
    interp1 ([⟨400, 1, 2, 3⟩, ⟨500, 4, 5, 6⟩].map
      fun r : CMFRow => (r.wl, r.zbar)) 600 = 0 :=
  interpolation_zero_fill [⟨400, 1, 2, 3⟩, ⟨500, 4, 5, 6⟩] 600
    (by simp) (by simp; norm_num) (by right; simp; norm_num)

/-- C4: for a genuinely two-dimensional table accepted by the Table
Loader, `load_spectrum` succeeds and splits it into the wavelength and
intensity columns exactly when it has two columns, and fails with the
invalid-format error otherwise. -/
theorem two_column_validation (path : String) (rows : List (List ℚ))
    (_hrect : ∀ r ∈ rows, r.length = npNcols rows)
    (h2 : 2 ≤ rows.length) :
    (npNcols rows = 2 →
      load_spectrum path rows =
        .ok (rows.map fun r => r.headD 0, rows.map fun r => r.getD 1 0)) ∧
    (npNcols rows ≠ 2 →
      load_spectrum path rows = .error (.invalidSpectrumFormat path)) := by
  have hdim : npNdim rows = 2 := by
    rw [npNdim, if_neg (by omega)]
  constructor
  · intro hc
    rw [load_spectrum, if_neg]
    push_neg
    exact ⟨hdim, hc⟩
  · intro hc
    rw [load_spectrum, if_pos (Or.inr hc)]

/-- Witness for C4 at a concrete two-column table. -/
theorem two_column_validation_witness :
    (npNcols [[400, 1], [500, 2]] = 2 →
      load_spectrum "s.csv" [[400, 1], [500, 2]] =
        .ok ([[400, 1], [500, 2]].map fun r => r.headD 0,
             [[400, 1], [500, 2]].map fun r => r.getD 1 0)) ∧
    (npNcols [[400, 1], [500, 2]] ≠ 2 →
      load_spectrum "s.csv" [[400, 1], [500, 2]] =
        .error (.invalidSpectrumFormat "s.csv")) :=
  two_column_validation "s.csv" [[400, 1], [500, 2]]
    (by decide)
    (by simp)

/-- C5 (amended): when the maximum clipped linear channel is positive, the
RGB Encoder divides the three clipped channels by that maximum and the
maximum channel of the result is exactly 1. -/
theorem rgb_brightness_normalization (x y z : ℚ)
    (hpos : 0 < maxChannel (clipRGB (linearRGB x y z))) :
    normalizeRGB (clipRGB (linearRGB x y z)) =
      ((clipRGB (linearRGB x y z)).1 / maxChannel (clipRGB (linearRGB x y z)),
       (clipRGB (linearRGB x y z)).2.1 / maxChannel (clipRGB (linearRGB x y z)),
       (clipRGB (linearRGB x y z)).2.2 / maxChannel (clipRGB (linearRGB x y z))) ∧
    maxChannel (normalizeRGB (clipRGB (linearRGB x y z))) = 1 := by
  have hn : normalizeRGB (clipRGB (linearRGB x y z)) =
      ((clipRGB (linearRGB x y z)).1 / maxChannel (clipRGB (linearRGB x y z)),
       (clipRGB (linearRGB x y z)).2.1 / maxChannel (clipRGB (linearRGB x y z)),
       (clipRGB (linearRGB x y z)).2.2 / maxChannel (clipRGB (linearRGB x y z))) := by
    rw [normalizeRGB]
    simp only [if_pos hpos]
  refine ⟨hn, ?_⟩
  rw [hn, maxChannel]
  show max _ (max _ _) = 1
  rw [max_div_div_right hpos.le, max_div_div_right hpos.le]
  exact div_self (ne_of_gt hpos)

/-- Witness for C5 at the XYZ triple (1, 1, 1). -/
theorem rgb_brightness_normalization_witness :
    normalizeRGB (clipRGB (linearRGB 1 1 1)) =
      ((clipRGB (linearRGB 1 1 1)).1 / maxChannel (clipRGB (linearRGB 1 1 1)),
       (clipRGB (linearRGB 1 1 1)).2.1 / maxChannel (clipRGB (linearRGB 1 1 1)),
       (clipRGB (linearRGB 1 1 1)).2.2 / maxChannel (clipRGB (linearRGB 1 1 1))) ∧
    maxChannel (normalizeRGB (clipRGB (linearRGB 1 1 1))) = 1 :=
  rgb_brightness_normalization 1 1 1 (by
    show (0 : ℚ) < maxChannel (clipRGB (linearRGB 1 1 1))
    norm_num [linearRGB, clipRGB, maxChannel])

/-- Counterexample to C5 as stated: for the XYZ triple
(−0.9505, −1, −1.089) every linear channel is negative, the guarded
normalization is skipped, and the maximum channel afterwards is 0, not 1. -/
theorem rgb_brightness_normalization_cex :
    maxChannel (normalizeRGB (clipRGB (linearRGB (-0.9505) (-1) (-1.089)))) = 0 ∧
    (0 : ℚ) ≠ 1 := by
  constructor
  · norm_num [linearRGB, clipRGB, maxChannel, normalizeRGB]
  · norm_num

/-- C6 (amended): the gamma-encoding function is monotone non-decreasing
on each of its two pieces, it is monotone non-decreasing on [0,1] up to a
tolerance of 10⁻⁷, and its two pieces agree at the breakpoint 0.0031308
within 10⁻⁷ (exact monotonicity fails there, see the counterexample). -/
theorem gamma_monotone_amended :
    (∀ u v : ℝ, 0 ≤ u → u ≤ v → v ≤ 1 →
      (v ≤ 0.0031308 ∨ 0.0031308 < u) → gamma_correct u ≤ gamma_correct v) ∧
    (∀ u v : ℝ, 0 ≤ u → u ≤ v → v ≤ 1 →
      gamma_correct u ≤ gamma_correct v + 1 / 10 ^ 7) ∧
    |12.92 * (0.0031308 : ℝ) -
      (1.055 * (0.0031308 : ℝ) ^ ((1 : ℝ) / 2.4) - 0.055)| ≤ 1 / 10 ^ 7 := by
  refine ⟨?_, ?_, ?_⟩
  · intro u v _ huv _ hcase
    rcases hcase with h | h
    · exact gamma_correct_mono_low huv h
    · exact gamma_correct_mono_high (not_le.mpr h) huv
  · intro u v hu huv hv1
    by_cases hvt : v ≤ 0.0031308
    · have := gamma_correct_mono_low huv hvt
      linarith
    · by_cases hut : u ≤ 0.0031308
      · have h1 : gamma_correct u ≤ 12.92 * 0.0031308 := by
          rw [gamma_correct_of_le hut]; nlinarith
        have h2 : gamma_correct v =
            1.055 * v ^ ((5 : ℝ) / 12) - 0.055 := gamma_correct_of_gt hvt
        have h3 : (0.0031308 : ℝ) ^ ((5 : ℝ) / 12) ≤ v ^ ((5 : ℝ) / 12) :=
          Real.rpow_le_rpow (by norm_num) (le_of_lt (not_le.mp hvt))
            (by norm_num)
        have h4 := gamma_breakpoint_curve_ge
        rw [h2]
        nlinarith
      · have := gamma_correct_mono_high hut huv
        linarith
  · rw [gamma_exponent_eq, abs_le]
    have h1 := gamma_breakpoint_curve_le
    have h2 := gamma_breakpoint_curve_ge
    constructor <;> nlinarith

/-- Counterexample to C6 as stated: the gamma function decreases across
the breakpoint — at 0.0031308 it takes the linear-branch value, and at the
slightly larger 0.0031308001 the power branch gives a strictly smaller
value, so it is not monotone non-decreasing on [0,1]. -/
theorem gamma_monotone_cex :
    (0 : ℝ) ≤ 0.0031308 ∧ (0.0031308 : ℝ) ≤ 0.0031308001 ∧
    (0.0031308001 : ℝ) ≤ 1 ∧
    gamma_correct 0.0031308001 < gamma_correct 0.0031308 := by
  refine ⟨by norm_num, by norm_num, by norm_num, ?_⟩
  rw [gamma_correct_of_le (le_refl _), gamma_correct_of_gt (by norm_num)]
  have h : (0.0031308001 : ℝ) ^ ((5 : ℝ) / 12) < 5965621 / 65937500 := by
    rw [rpow512_lt_iff (by norm_num) (by norm_num)]
    norm_num
  nlinarith

/-- C1: a spectrum whose intensity is 1 at exactly one wavelength that is
a grid point of a strictly increasing CMF table and 0 at every other
sample integrates — after the (double) intensity normalization of `main` —
to exactly that grid row's (x̄, ȳ, z̄). -/
theorem delta_spectrum_identity (cie : List CMFRow) (r : CMFRow)
    (u v : List ℚ) (hs : (cie.map CMFRow.wl).Pairwise (· < ·))
    (hr : r ∈ cie) :
    spectrum_to_xyz (u ++ r.wl :: v)
      (normalizeByMax (normalizeByMax
        (List.replicate u.length 0 ++ 1 :: List.replicate v.length 0)))
      cie = (r.xbar, r.ybar, r.zbar) := by
  have hmax : npMax
      (List.replicate u.length (0 : ℚ) ++ 1 :: List.replicate v.length 0) = 1 :=
    npMax_delta _ _
  have hnorm : normalizeByMax
      (List.replicate u.length (0 : ℚ) ++ 1 :: List.replicate v.length 0) =
      List.replicate u.length (0 : ℚ) ++ 1 :: List.replicate v.length 0 := by
    rw [normalizeByMax, hmax]
    simp
  rw [hnorm, hnorm, spectrum_to_xyz_eq]
  have hix : interp1 (cie.map fun t => (t.wl, t.xbar)) r.wl = r.xbar :=
    interp1_mem _ (by rw [List.map_map]; exact hs) _ _
      (List.mem_map_of_mem _ hr)
  have hiy : interp1 (cie.map fun t => (t.wl, t.ybar)) r.wl = r.ybar :=
    interp1_mem _ (by rw [List.map_map]; exact hs) _ _
      (List.mem_map_of_mem _ hr)
  have hiz : interp1 (cie.map fun t => (t.wl, t.zbar)) r.wl = r.zbar :=
    interp1_mem _ (by rw [List.map_map]; exact hs) _ _
      (List.mem_map_of_mem _ hr)
  rw [weightedSum_delta, weightedSum_delta, weightedSum_delta]
  simp only [hix, hiy, hiz]

/-- Witness for C1: a delta spectrum at the second grid point of a concrete
two-row table reproduces that row. -/
theorem delta_spectrum_identity_witness :
    spectrum_to_xyz ([400] ++ (⟨500, 4, 5, 6⟩ : CMFRow).wl :: [])
      (normalizeByMax (normalizeByMax
        (List.replicate [(400 : ℚ)].length 0 ++
          1 :: List.replicate ([] : List ℚ).length 0)))
      [⟨400, 1, 2, 3⟩, ⟨500, 4, 5, 6⟩] = (4, 5, 6) :=
  delta_spectrum_identity [⟨400, 1, 2, 3⟩, ⟨500, 4, 5, 6⟩] ⟨500, 4, 5, 6⟩
    [400] [] (by simp; norm_num) (by simp)

/-- C8: normalizing intensities by their maximum is idempotent, and the
chromaticity computed from the normalized intensities coincides with the
chromaticity computed from the raw intensities. -/
theorem normalization_idempotent_invariant (ws Is : List ℚ)
    (cie : List CMFRow) (hm : 0 < npMax Is) :
    normalizeByMax (normalizeByMax Is) = normalizeByMax Is ∧
    chromaticity (spectrum_to_xyz ws (normalizeByMax Is) cie) =
      chromaticity (spectrum_to_xyz ws Is cie) := by
  have hm0 : npMax Is ≠ 0 := ne_of_gt hm
  have hmax1 : npMax (normalizeByMax Is) = 1 := by
    rw [normalizeByMax, npMax_map_div hm, div_self hm0]
  constructor
  · have hout : normalizeByMax (normalizeByMax Is) =
        (normalizeByMax Is).map (· / npMax (normalizeByMax Is)) := rfl
    rw [hout, hmax1]
    simp
  · simp only [spectrum_to_xyz_normalize, chromaticity]
    rw [div_add_div_same, div_add_div_same, div_div_same_cancel hm0,
      div_div_same_cancel hm0]

/-- Witness for C8 at a concrete one-sample spectrum. -/
theorem normalization_idempotent_invariant_witness :
    normalizeByMax (normalizeByMax [(2 : ℚ)]) = normalizeByMax [(2 : ℚ)] ∧
    chromaticity (spectrum_to_xyz [400] (normalizeByMax [(2 : ℚ)]) []) =
      chromaticity (spectrum_to_xyz [400] [(2 : ℚ)] []) :=
  normalization_idempotent_invariant [400] [(2 : ℚ)] [] (by
    show (0 : ℚ) < npMax [(2 : ℚ)]
    norm_num [npMax])

/-- C2: for a spectrum with non-negative intensities, a positive maximum
intensity and a non-zero tristimulus sum, computed against a CMF table
with non-negative entries, the chromaticity coordinates lie in [0,1] and
sum to at most 1. -/
theorem chromaticity_bounds (ws Is : List ℚ) (cie : List CMFRow)
    (hI : ∀ I ∈ Is, 0 ≤ I) (hm : 0 < npMax Is)
    (hcie : ∀ r ∈ cie, 0 ≤ r.xbar ∧ 0 ≤ r.ybar ∧ 0 ≤ r.zbar)
    (htot : (spectrum_to_xyz ws (normalizeByMax (normalizeByMax Is)) cie).1 +
        (spectrum_to_xyz ws (normalizeByMax (normalizeByMax Is)) cie).2.1 +
        (spectrum_to_xyz ws (normalizeByMax (normalizeByMax Is)) cie).2.2 ≠ 0) :
    0 ≤ (chromaticity
        (spectrum_to_xyz ws (normalizeByMax (normalizeByMax Is)) cie)).1 ∧
    (chromaticity
        (spectrum_to_xyz ws (normalizeByMax (normalizeByMax Is)) cie)).1 ≤ 1 ∧
    0 ≤ (chromaticity
        (spectrum_to_xyz ws (normalizeByMax (normalizeByMax Is)) cie)).2 ∧
    (chromaticity
        (spectrum_to_xyz ws (normalizeByMax (normalizeByMax Is)) cie)).2 ≤ 1 ∧
    (chromaticity
        (spectrum_to_xyz ws (normalizeByMax (normalizeByMax Is)) cie)).1 +
      (chromaticity
        (spectrum_to_xyz ws (normalizeByMax (normalizeByMax Is)) cie)).2 ≤ 1 := by
  have hI1 : ∀ x ∈ normalizeByMax Is, 0 ≤ x := by
    intro x hx
    rw [normalizeByMax] at hx
    obtain ⟨I, hIm, rfl⟩ := List.mem_map.mp hx
    exact div_nonneg (hI I hIm) hm.le
  have hmax1 : npMax (normalizeByMax Is) = 1 := by
    rw [normalizeByMax, npMax_map_div hm, div_self (ne_of_gt hm)]
  have hI2 : ∀ x ∈ normalizeByMax (normalizeByMax Is), 0 ≤ x := by
    intro x hx
    rw [normalizeByMax] at hx
    obtain ⟨I, hIm, rfl⟩ := List.mem_map.mp hx
    refine div_nonneg (hI1 I hIm) ?_
    rw [hmax1]
    norm_num
  have hfx : ∀ w, 0 ≤ interp1 (cie.map fun t => (t.wl, t.xbar)) w := by
    intro w
    refine interp1_nonneg _ ?_ w
    intro p hp
    obtain ⟨t, ht, rfl⟩ := List.mem_map.mp hp
    exact (hcie t ht).1
  have hfy : ∀ w, 0 ≤ interp1 (cie.map fun t => (t.wl, t.ybar)) w := by
    intro w
    refine interp1_nonneg _ ?_ w
    intro p hp
    obtain ⟨t, ht, rfl⟩ := List.mem_map.mp hp
    exact (hcie t ht).2.1
  have hfz : ∀ w, 0 ≤ interp1 (cie.map fun t => (t.wl, t.zbar)) w := by
    intro w
    refine interp1_nonneg _ ?_ w
    intro p hp
    obtain ⟨t, ht, rfl⟩ := List.mem_map.mp hp
    exact (hcie t ht).2.2
  set T := spectrum_to_xyz ws (normalizeByMax (normalizeByMax Is)) cie with hT
  have hX : 0 ≤ T.1 := by
    rw [hT, spectrum_to_xyz_eq]
    exact weightedSum_nonneg hfx _ _ hI2
  have hY : 0 ≤ T.2.1 := by
    rw [hT, spectrum_to_xyz_eq]
    exact weightedSum_nonneg hfy _ _ hI2
  have hZ : 0 ≤ T.2.2 := by
    rw [hT, spectrum_to_xyz_eq]
    exact weightedSum_nonneg hfz _ _ hI2
  have htpos : 0 < T.1 + T.2.1 + T.2.2 :=
    lt_of_le_of_ne (by linarith) (Ne.symm htot)
  simp only [chromaticity]
  refine ⟨div_nonneg hX htpos.le, (div_le_one htpos).mpr (by linarith),
    div_nonneg hY htpos.le, (div_le_one htpos).mpr (by linarith), ?_⟩
  rw [div_add_div_same]
  exact (div_le_one htpos).mpr (by linarith)

/-- Witness for C2 at a one-sample spectrum on a concrete two-row table. -/
theorem chromaticity_bounds_witness :
    0 ≤ (chromaticity
        (spectrum_to_xyz [1] (normalizeByMax (normalizeByMax [(2 : ℚ)]))
          [⟨1, 1, 1, 1⟩, ⟨2, 1, 1, 1⟩])).1 ∧
    (chromaticity
        (spectrum_to_xyz [1] (normalizeByMax (normalizeByMax [(2 : ℚ)]))
          [⟨1, 1, 1, 1⟩, ⟨2, 1, 1, 1⟩])).1 ≤ 1 ∧
    0 ≤ (chromaticity
        (spectrum_to_xyz [1] (normalizeByMax (normalizeByMax [(2 : ℚ)]))
          [⟨1, 1, 1, 1⟩, ⟨2, 1, 1, 1⟩])).2 ∧
    (chromaticity
        (spectrum_to_xyz [1] (normalizeByMax (normalizeByMax [(2 : ℚ)]))
          [⟨1, 1, 1, 1⟩, ⟨2, 1, 1, 1⟩])).2 ≤ 1 ∧
    (chromaticity
        (spectrum_to_xyz [1] (normalizeByMax (normalizeByMax [(2 : ℚ)]))
          [⟨1, 1, 1, 1⟩, ⟨2, 1, 1, 1⟩])).1 +
      (chromaticity
        (spectrum_to_xyz [1] (normalizeByMax (normalizeByMax [(2 : ℚ)]))
          [⟨1, 1, 1, 1⟩, ⟨2, 1, 1, 1⟩])).2 ≤ 1 :=
  chromaticity_bounds [1] [(2 : ℚ)] [⟨1, 1, 1, 1⟩, ⟨2, 1, 1, 1⟩]
    (by decide) (by decide) (by decide)
    (by norm_num [spectrum_to_xyz_eq, normalizeByMax, npMax, weightedSum,
      interp1])

/-- Characterization of `runPipeline` with the normalization steps folded
into `normalizeByMax`. -/
theorem runPipeline_eq (ws Is : List ℚ) (cie : List CMFRow) :
    runPipeline ws Is cie =
      if ws.length = 0 ∨ Is.length = 0 then .error .emptySpectrum
      else if 0 < npMax Is then
        if (spectrum_to_xyz ws (normalizeByMax (normalizeByMax Is)) cie).1 +
            (spectrum_to_xyz ws (normalizeByMax (normalizeByMax Is)) cie).2.1 +
            (spectrum_to_xyz ws (normalizeByMax (normalizeByMax Is)) cie).2.2 = 0
        then .error .zeroTristimulus
        else .ok
          (((spectrum_to_xyz ws (normalizeByMax (normalizeByMax Is)) cie).1 /
              ((spectrum_to_xyz ws (normalizeByMax (normalizeByMax Is)) cie).1 +
               (spectrum_to_xyz ws (normalizeByMax (normalizeByMax Is)) cie).2.1 +
               (spectrum_to_xyz ws (normalizeByMax (normalizeByMax Is)) cie).2.2),
            (spectrum_to_xyz ws (normalizeByMax (normalizeByMax Is)) cie).2.1 /
              ((spectrum_to_xyz ws (normalizeByMax (normalizeByMax Is)) cie).1 +
               (spectrum_to_xyz ws (normalizeByMax (normalizeByMax Is)) cie).2.1 +
               (spectrum_to_xyz ws (normalizeByMax (normalizeByMax Is)) cie).2.2)),
           xyz_to_rgb (spectrum_to_xyz ws (normalizeByMax (normalizeByMax Is)) cie).1
             (spectrum_to_xyz ws (normalizeByMax (normalizeByMax Is)) cie).2.1
             (spectrum_to_xyz ws (normalizeByMax (normalizeByMax Is)) cie).2.2)
      else .error .allZeroIntensities :=
  rfl

/-- C3: a non-empty spectrum whose maximum intensity is not positive makes
the pipeline fail with the all-zero-intensities error before integration; a
zero tristimulus sum makes it fail with the zero-tristimulus error; and a
successful run never carries a zero tristimulus sum. -/
theorem degenerate_rejection (ws Is : List ℚ) (cie : List CMFRow)
    (hws : ws ≠ []) (hIs : Is ≠ []) :
    (npMax Is ≤ 0 → runPipeline ws Is cie = .error .allZeroIntensities) ∧
    (0 < npMax Is →
      (spectrum_to_xyz ws (normalizeByMax (normalizeByMax Is)) cie).1 +
        (spectrum_to_xyz ws (normalizeByMax (normalizeByMax Is)) cie).2.1 +
        (spectrum_to_xyz ws (normalizeByMax (normalizeByMax Is)) cie).2.2 = 0 →
      runPipeline ws Is cie = .error .zeroTristimulus) ∧
    (∀ out, runPipeline ws Is cie = .ok out →
      (spectrum_to_xyz ws (normalizeByMax (normalizeByMax Is)) cie).1 +
        (spectrum_to_xyz ws (normalizeByMax (normalizeByMax Is)) cie).2.1 +
        (spectrum_to_xyz ws (normalizeByMax (normalizeByMax Is)) cie).2.2 ≠ 0) := by
  have hcond : ¬(ws.length = 0 ∨ Is.length = 0) := by
    simp [List.length_eq_zero, hws, hIs]
  refine ⟨?_, ?_, ?_⟩
  · intro hle
    rw [runPipeline_eq, if_neg hcond, if_neg (not_lt.mpr hle)]
  · intro hpos h0
    rw [runPipeline_eq, if_neg hcond, if_pos hpos, if_pos h0]
  · intro out hok h0
    rcases le_or_lt (npMax Is) 0 with hle | hpos
    · rw [runPipeline_eq, if_neg hcond, if_neg (not_lt.mpr hle)] at hok
      cases hok
    · rw [runPipeline_eq, if_neg hcond, if_pos hpos, if_pos h0] at hok
      cases hok

/-- Witness for C3 at the all-zero one-sample spectrum. -/
theorem degenerate_rejection_witness :
    (npMax [(0 : ℚ)] ≤ 0 →
      runPipeline [1] [(0 : ℚ)] [] = .error .allZeroIntensities) ∧
    (0 < npMax [(0 : ℚ)] →
      (spectrum_to_xyz [1] (normalizeByMax (normalizeByMax [(0 : ℚ)])) []).1 +
        (spectrum_to_xyz [1] (normalizeByMax (normalizeByMax [(0 : ℚ)])) []).2.1 +
        (spectrum_to_xyz [1] (normalizeByMax (normalizeByMax [(0 : ℚ)])) []).2.2 = 0 →
      runPipeline [1] [(0 : ℚ)] [] = .error .zeroTristimulus) ∧
    (∀ out, runPipeline [1] [(0 : ℚ)] [] = .ok out →
      (spectrum_to_xyz [1] (normalizeByMax (normalizeByMax [(0 : ℚ)])) []).1 +
        (spectrum_to_xyz [1] (normalizeByMax (normalizeByMax [(0 : ℚ)])) []).2.1 +
        (spectrum_to_xyz [1] (normalizeByMax (normalizeByMax [(0 : ℚ)])) []).2.2 ≠ 0) :=
  degenerate_rejection [1] [(0 : ℚ)] []
    (List.cons_ne_nil 1 []) (List.cons_ne_nil 0 [])

/-- Unfolding of the RGB Encoder into its stages. -/
theorem xyz_to_rgb_eq (x y z : ℚ) :
    xyz_to_rgb x y z =
      (pyRound (gamma_correct
          (((normalizeRGB (clipRGB (linearRGB x y z))).1 : ℝ)) * 255),
       pyRound (gamma_correct
          (((normalizeRGB (clipRGB (linearRGB x y z))).2.1 : ℝ)) * 255),
       pyRound (gamma_correct
          (((normalizeRGB (clipRGB (linearRGB x y z))).2.2 : ℝ)) * 255)) :=
  rfl

/-- After the non-negativity clip, the guarded brightness normalization
leaves every channel inside [0, 1]. -/
theorem normalizeRGB_bounds (d : ℚ × ℚ × ℚ) (h1 : 0 ≤ d.1)
    (h2 : 0 ≤ d.2.1) (h3 : 0 ≤ d.2.2) :
    (0 ≤ (normalizeRGB d).1 ∧ (normalizeRGB d).1 ≤ 1) ∧
    (0 ≤ (normalizeRGB d).2.1 ∧ (normalizeRGB d).2.1 ≤ 1) ∧
    (0 ≤ (normalizeRGB d).2.2 ∧ (normalizeRGB d).2.2 ≤ 1) := by
  have hd1 : d.1 ≤ maxChannel d := le_max_left _ _
  have hd2 : d.2.1 ≤ maxChannel d :=
    le_trans (le_max_left _ _) (le_max_right _ _)
  have hd3 : d.2.2 ≤ maxChannel d :=
    le_trans (le_max_right _ _) (le_max_right _ _)
  by_cases hm : 0 < maxChannel d
  · rw [normalizeRGB]
    simp only [if_pos hm]
    exact ⟨⟨div_nonneg h1 hm.le, (div_le_one hm).mpr hd1⟩,
      ⟨div_nonneg h2 hm.le, (div_le_one hm).mpr hd2⟩,
      ⟨div_nonneg h3 hm.le, (div_le_one hm).mpr hd3⟩⟩
  · rw [normalizeRGB]
    simp only [if_neg hm]
    have hm0 := not_lt.mp hm
    exact ⟨⟨h1, by linarith⟩, ⟨h2, by linarith⟩, ⟨h3, by linarith⟩⟩

/-- C10: for every XYZ triple with non-negative components each output
channel of the RGB Encoder is an integer in [0, 255]; and whenever all
linear channels are non-positive the guarded normalization is skipped and
the encoder returns (0, 0, 0). -/
theorem rgb_output_range (x y z : ℚ) (_hx : 0 ≤ x) (_hy : 0 ≤ y)
    (_hz : 0 ≤ z) :
    (0 ≤ (xyz_to_rgb x y z).1 ∧ (xyz_to_rgb x y z).1 ≤ 255) ∧
    (0 ≤ (xyz_to_rgb x y z).2.1 ∧ (xyz_to_rgb x y z).2.1 ≤ 255) ∧
    (0 ≤ (xyz_to_rgb x y z).2.2 ∧ (xyz_to_rgb x y z).2.2 ≤ 255) ∧
    ((linearRGB x y z).1 ≤ 0 ∧ (linearRGB x y z).2.1 ≤ 0 ∧
        (linearRGB x y z).2.2 ≤ 0 →
      xyz_to_rgb x y z = (0, 0, 0)) := by
  have hch : ∀ q : ℚ, 0 ≤ q → q ≤ 1 →
      0 ≤ pyRound (gamma_correct (q : ℝ) * 255) ∧
      pyRound (gamma_correct (q : ℝ) * 255) ≤ 255 := by
    intro q h0 h1
    have h0' : (0 : ℝ) ≤ (q : ℝ) := by exact_mod_cast h0
    have h1' : ((q : ℝ)) ≤ 1 := by exact_mod_cast h1
    have hg0 := gamma_correct_nonneg h0'
    have hg1 := gamma_correct_le_one h0' h1'
    refine ⟨pyRound_nonneg (by nlinarith), pyRound_le ?_⟩
    push_cast
    nlinarith
  have hclip1 : 0 ≤ (clipRGB (linearRGB x y z)).1 := le_max_right _ _
  have hclip2 : 0 ≤ (clipRGB (linearRGB x y z)).2.1 := le_max_right _ _
  have hclip3 : 0 ≤ (clipRGB (linearRGB x y z)).2.2 := le_max_right _ _
  obtain ⟨⟨hn1, hn1'⟩, ⟨hn2, hn2'⟩, hn3, hn3'⟩ :=
    normalizeRGB_bounds (clipRGB (linearRGB x y z)) hclip1 hclip2 hclip3
  rw [xyz_to_rgb_eq]
  refine ⟨hch _ hn1 hn1', hch _ hn2 hn2', hch _ hn3 hn3', ?_⟩
  rintro ⟨hl1, hl2, hl3⟩
  have hclip : clipRGB (linearRGB x y z) = (0, 0, 0) := by
    show (max (linearRGB x y z).1 0, max (linearRGB x y z).2.1 0,
      max (linearRGB x y z).2.2 0) = (0, 0, 0)
    rw [max_eq_right hl1, max_eq_right hl2, max_eq_right hl3]
  rw [hclip]
  have hnz : normalizeRGB ((0 : ℚ), (0 : ℚ), (0 : ℚ)) = (0, 0, 0) := by
    rw [normalizeRGB]
    norm_num [maxChannel]
  rw [hnz]
  simp [gamma_correct_zero, pyRound_zero]

/-- Witness for C10 at the XYZ triple (1, 1, 1). -/
theorem rgb_output_range_witness :
    (0 ≤ (xyz_to_rgb 1 1 1).1 ∧ (xyz_to_rgb 1 1 1).1 ≤ 255) ∧
    (0 ≤ (xyz_to_rgb 1 1 1).2.1 ∧ (xyz_to_rgb 1 1 1).2.1 ≤ 255) ∧
    (0 ≤ (xyz_to_rgb 1 1 1).2.2 ∧ (xyz_to_rgb 1 1 1).2.2 ≤ 255) ∧
    ((linearRGB 1 1 1).1 ≤ 0 ∧ (linearRGB 1 1 1).2.1 ≤ 0 ∧
        (linearRGB 1 1 1).2.2 ≤ 0 →
      xyz_to_rgb 1 1 1 = (0, 0, 0)) :=
  rgb_output_range 1 1 1 (by norm_num) (by norm_num) (by norm_num)

/-- C9: a wrong argument count exits with status 1 and a usage message; a
missing spectrum file exits with status 1 with a message containing the
path; and every pipeline failure after those checks (invalid format or a
pipeline error) is printed with an `Error:` prefix while the process exits
with status 0. -/
theorem exit_status_policy (fileExists : String → Bool)
    (fileTable : String → List (List ℚ)) (cie : List CMFRow) :
    (∀ argv : List String, argv.length ≠ 2 →
      mainRun argv fileExists fileTable cie =
        ⟨1, "Usage: python spectrum-to-rgb.py <spectrum_file.csv>"⟩) ∧
    (∀ p0 path : String, fileExists path = false →
      (mainRun [p0, path] fileExists fileTable cie).exitCode = 1 ∧
      ∃ s t : String,
        (mainRun [p0, path] fileExists fileTable cie).message =
          s ++ path ++ t) ∧
    (∀ (p0 path : String) (e : PipelineError), fileExists path = true →
      load_spectrum path (fileTable path) = .error e →
      mainRun [p0, path] fileExists fileTable cie =
        ⟨0, "Error: " ++ e.message⟩) ∧
    (∀ (p0 path : String) (ws Is : List ℚ) (e : PipelineError),
      fileExists path = true →
      load_spectrum path (fileTable path) = .ok (ws, Is) →
      runPipeline ws Is cie = .error e →
      mainRun [p0, path] fileExists fileTable cie =
        ⟨0, "Error: " ++ e.message⟩) := by
  refine ⟨?_, ?_, ?_, ?_⟩
  · intro argv h
    rw [mainRun, if_pos h]
  · intro p0 path hfe
    have hrun : mainRun [p0, path] fileExists fileTable cie =
        ⟨1, "Error: file \x27" ++ path ++ "\x27 not found."⟩ := by
      rw [mainRun, if_neg (by simp)]
      simp only [List.getD_cons_succ, List.getD_cons_zero]
      rw [if_pos hfe]
    rw [hrun]
    exact ⟨rfl, "Error: file \x27", "\x27 not found.", rfl⟩
  · intro p0 path e hfe hload
    rw [mainRun, if_neg (by simp)]
    simp only [List.getD_cons_succ, List.getD_cons_zero]
    rw [if_neg (by simp [hfe]), hload]
  · intro p0 path ws Is e hfe hload hrunp
    rw [mainRun, if_neg (by simp)]
    simp only [List.getD_cons_succ, List.getD_cons_zero]
    rw [if_neg (by simp [hfe]), hload]
    dsimp only
    rw [hrunp]

/-- Witness for C9 with a concrete environment in which no file exists. -/
theorem exit_status_policy_witness :
    (∀ argv : List String, argv.length ≠ 2 →
      mainRun argv (fun _ => false) (fun _ => []) [] =
        ⟨1, "Usage: python spectrum-to-rgb.py <spectrum_file.csv>"⟩) ∧
    (∀ p0 path : String, (fun _ : String => false) path = false →
      (mainRun [p0, path] (fun _ => false) (fun _ => []) []).exitCode = 1 ∧
      ∃ s t : String,
        (mainRun [p0, path] (fun _ => false) (fun _ => []) []).message =
          s ++ path ++ t) ∧
    (∀ (p0 path : String) (e : PipelineError),
      (fun _ : String => false) path = true →
      load_spectrum path ((fun _ : String => ([] : List (List ℚ))) path) =
        .error e →
      mainRun [p0, path] (fun _ => false) (fun _ => []) [] =
        ⟨0, "Error: " ++ e.message⟩) ∧
    (∀ (p0 path : String) (ws Is : List ℚ) (e : PipelineError),
      (fun _ : String => false) path = true →
      load_spectrum path ((fun _ : String => ([] : List (List ℚ))) path) =
        .ok (ws, Is) →
      runPipeline ws Is [] = .error e →
      mainRun [p0, path] (fun _ => false) (fun _ => []) [] =
        ⟨0, "Error: " ++ e.message⟩) :=
  exit_status_policy (fun _ => false) (fun _ => []) []

end SpecToRGB
